import Mathlib

/-!
Verification development for the `threaded` crate: a minimalist fixed-capacity
thread pool (`src/lib.rs`).  The pool owns a vector of workers, a crossbeam
unbounded channel carrying `Message` values (`NewJob` boxed closures or
`Terminate`), and both a send-end and a receive-end of that channel.

Shallow embedding conventions:
* jobs (`Box<dyn FnOnce() + Send>`) are abstracted to `Nat` identifiers — the
  pool never inspects a job, it only moves it around and eventually invokes it;
* `Uuid::new_v4()`, `Instant::now()` and `thread::spawn` handles are diagnostic
  data; they are modelled by the `Nat` supplied to `Worker.new`;
* fallible operations (Rust `unwrap` on channel results, `assert!`) return
  `Option`: `none` models a panic/abort of the calling thread;
* the channel is modelled by its FIFO buffer plus live send-end and
  receive-end counts: `crossbeam::channel::Sender::send` on an unbounded
  channel fails exactly when every receive-end has been dropped, and `recv`
  fails exactly when the buffer is empty and every send-end has been dropped;
* the dynamic (concurrent) behaviour of the spawned worker threads is modelled
  separately by the small-step transition system `SysStep` below, with one
  interleaving step per message receipt / job completion.
-/

namespace Threaded

/-- Rust: `enum Message { NewJob(Job), Terminate }` with `type Job = Box<dyn FnOnce() + Send>`
abstracted to a `Nat` job identifier. -/
inductive Message where
  | NewJob (job : Nat)
  | Terminate
deriving DecidableEq, Repr

/-- Rust: `struct Worker { id: Uuid, thread: Option<JoinHandle<()>>, created: Instant }`.
The `Uuid`, the join handle and the `Instant` are opaque diagnostic data,
modelled by `Nat` values. -/
structure Worker where
  id : Nat
  thread : Option Nat
  created : Nat
deriving DecidableEq, Repr

/-- Rust: `Worker::new` — spawns the worker thread and records fresh diagnostic
metadata.  `fresh` stands for the freshly drawn `Uuid`/`Instant`/handle. -/
def Worker.new (fresh : Nat) : Worker :=
  { id := fresh, thread := some fresh, created := fresh }

/-- State of one crossbeam unbounded channel: the FIFO buffer of messages plus
the numbers of live send-ends and receive-ends. -/
structure Channel where
  queue : List Message
  senders : Nat
  receivers : Nat
deriving DecidableEq, Repr

/-- Rust: `Sender::send` on an unbounded channel — never blocks, appends to the
buffer; it returns `Err(SendError)` exactly when all receive-ends have been
dropped.  `none` models the failed send (whose `unwrap` panics in the source). -/
def Channel.send (ch : Channel) (m : Message) : Option Channel :=
  if ch.receivers = 0 then none
  else some { ch with queue := ch.queue ++ [m] }

/-- Sequence of sends (used by `ThreadPool.drop`, which unwraps each one). -/
def Channel.sendAll (ch : Channel) : List Message → Option Channel
  | [] => some ch
  | m :: rest => (ch.send m).bind (fun ch2 => ch2.sendAll rest)

/-- Rust: `crossbeam::channel::RecvError` (the only error `recv` returns). -/
inductive RecvError where
  | disconnected
deriving DecidableEq, Repr

/-- Rust: `Receiver::recv` — pops the head of the buffer; with an empty buffer
it returns `Err(RecvError)` when every send-end has been dropped, and otherwise
blocks (modelled by the outer `none`: no result is produced yet). -/
def Channel.recv (ch : Channel) : Option (Except RecvError (Message × Channel)) :=
  match ch.queue with
  | m :: rest => some (Except.ok (m, { ch with queue := rest }))
  | [] => if ch.senders = 0 then some (Except.error RecvError.disconnected) else none

/-- Rust: `struct ThreadPool { workers: Vec<Worker>, sender: Sender<Message>, receiver: Receiver<Message> }`.
The single shared channel state stands for both endpoint fields; the pool's own
two endpoints are counted in `channel.senders` / `channel.receivers`. -/
structure ThreadPool where
  workers : List Worker
  channel : Channel
deriving DecidableEq, Repr

/-- Rust: `ThreadPool::new(capacity)` — `assert!(capacity > 0)` (modelled by
`none`), creates the unbounded channel, spawns `capacity` workers each holding
a clone of the receive-end, and keeps one send-end and one receive-end in the
pool itself: hence `senders = 1` and `receivers = capacity + 1`. -/
def ThreadPool.new (capacity : Nat) : Option ThreadPool :=
  if capacity = 0 then none
  else
    some { workers := (List.range capacity).map Worker.new,
           channel := { queue := [], senders := 1, receivers := capacity + 1 } }

/-- Rust: `ThreadPool::capacity` — `self.workers.len()`. -/
def ThreadPool.capacity (tp : ThreadPool) : Nat :=
  tp.workers.length

/-- Rust: `ThreadPool::resize(&self, capacity)` — `assert!(capacity > 0)`
(modelled by `none`) and then `// fixme`: nothing happens; it takes `&self`,
so it could not mutate the pool even in principle. -/
def ThreadPool.resize (tp : ThreadPool) (capacity : Nat) : Option ThreadPool :=
  if capacity = 0 then none
  else some tp

/-- Rust: `ThreadPool::execute` — boxes the closure, wraps it in
`Message::NewJob` and sends it, unwrapping the send result (`none` = panic). -/
def ThreadPool.execute (tp : ThreadPool) (job : Nat) : Option ThreadPool :=
  (tp.channel.send (Message.NewJob job)).map (fun ch => { tp with channel := ch })

/-- Join-loop of `Drop::drop`: for each worker in creation order,
`worker.thread.take()` and, when a handle was present, `join` it.  Returns the
joined handles in join order together with the workers after the takes. -/
def joinWorkers : List Worker → List Nat × List Worker
  | [] => ([], [])
  | w :: ws =>
    let rest := joinWorkers ws
    match w.thread with
    | some h => (h :: rest.1, { w with thread := none } :: rest.2)
    | none => (rest.1, { w with thread := none } :: rest.2)

/-- Rust: `impl Drop for ThreadPool` — sends one `Terminate` per owned worker
(each send unwrapped), then joins every worker thread in creation order.
Returns the pool state after teardown and the joined handles; `none` models a
panicking send. -/
def ThreadPool.drop (tp : ThreadPool) : Option (ThreadPool × List Nat) :=
  (tp.channel.sendAll (List.replicate tp.workers.length Message.Terminate)).map
    (fun ch =>
      let j := joinWorkers tp.workers
      ({ workers := j.2, channel := ch }, j.1))

/-- One step of the body of the worker loop, after `receiver.recv()` has
produced a result: `unwrap` of an `Err` panics the worker thread; `NewJob`
runs the job and continues the loop; `Terminate` breaks out of the loop. -/
inductive WorkerStep where
  | ranJob (job : Nat)
  | exited
  | panicked
deriving DecidableEq, Repr

/-- Rust: body of the `loop` in `Worker::new` — `let message = receiver.recv().unwrap();`
followed by the two-armed `match`. -/
def workerLoopBody : Except RecvError Message → WorkerStep
  | Except.error _ => WorkerStep.panicked
  | Except.ok (Message.NewJob job) => WorkerStep.ranJob job
  | Except.ok Message.Terminate => WorkerStep.exited

/-- Jobs a worker executes, in order, when its loop consumes the given stream
of messages: each `NewJob` is run and the loop continues; the first
`Terminate` breaks the loop and nothing after it is touched. -/
def workerRun : List Message → List Nat
  | [] => []
  | Message.NewJob job :: rest => job :: workerRun rest
  | Message.Terminate :: _ => []

/-- Status of one spawned worker thread: blocked in `recv` (`Idle`), executing
a dequeued job (`Running job`), or exited after consuming `Terminate`
(`Stopped`).  Worker identity is irrelevant to the dynamics, so the workers of
a running system are kept as a multiset of statuses. -/
inductive WStatus where
  | Idle
  | Running (job : Nat)
  | Stopped
deriving DecidableEq, Repr

/-- Dynamic state of the running system: the channel buffer, the statuses of
the worker threads, and the multiset of job identifiers whose execution has
completed. -/
structure SysState where
  queue : List Message
  workers : Multiset WStatus
  executed : Multiset Nat
deriving DecidableEq

/-- Interleaving semantics of the worker loops against the shared channel
(each step is one atomic action of one worker thread):
* an idle worker dequeues the head `NewJob job` and starts running it;
* a running worker finishes its job and goes back to blocking in `recv`;
* an idle worker dequeues the head `Terminate`, breaks its loop and exits.
Dequeues take the buffer head, so no two workers ever receive the same
message. -/
inductive SysStep : SysState → SysState → Prop where
  | recvJob (job : Nat) (rest : List Message) (ws : Multiset WStatus) (ex : Multiset Nat)
      (h : WStatus.Idle ∈ ws) :
      SysStep ⟨Message.NewJob job :: rest, ws, ex⟩
              ⟨rest, WStatus.Running job ::ₘ ws.erase WStatus.Idle, ex⟩
  | finishJob (job : Nat) (q : List Message) (ws : Multiset WStatus) (ex : Multiset Nat)
      (h : WStatus.Running job ∈ ws) :
      SysStep ⟨q, ws, ex⟩
              ⟨q, WStatus.Idle ::ₘ ws.erase (WStatus.Running job), job ::ₘ ex⟩
  | recvTerm (rest : List Message) (ws : Multiset WStatus) (ex : Multiset Nat)
      (h : WStatus.Idle ∈ ws) :
      SysStep ⟨Message.Terminate :: rest, ws, ex⟩
              ⟨rest, WStatus.Stopped ::ₘ ws.erase WStatus.Idle, ex⟩

/-- Reachability under any interleaving of worker steps. -/
def SysReach : SysState → SysState → Prop :=
  Relation.ReflTransGen SysStep

/-- System state at the point where the pool's `Drop` has pushed its
`Terminate` messages and begins joining: the buffer holds the submitted jobs
(in submission order) followed by one `Terminate` per worker, all `n` workers
are idle, and nothing has executed yet.  (Steps taken by workers before the
drop only commute jobs out of the buffer earlier; starting from the fully
queued configuration covers every submission/teardown schedule.) -/
def initState (jobs : List Nat) (n : Nat) : SysState :=
  ⟨jobs.map Message.NewJob ++ List.replicate n Message.Terminate,
   Multiset.replicate n WStatus.Idle, 0⟩

/-- Inductive invariant of the teardown run: per-job conservation (executed +
in-execution + still-queued = submitted), `Terminate` conservation (queued +
consumed-as-stop = `n`), the buffer is only ever consumed from the front, and
the worker-thread count is fixed. -/
def SysInv (jobs : List Nat) (n : Nat) (s : SysState) : Prop :=
  (∀ j : Nat, s.executed.count j + s.workers.count (WStatus.Running j)
      + s.queue.count (Message.NewJob j) = jobs.count j) ∧
  (s.queue.count Message.Terminate + s.workers.count WStatus.Stopped = n) ∧
  s.queue <:+ (jobs.map Message.NewJob ++ List.replicate n Message.Terminate) ∧
  Multiset.card s.workers = n

/-- Pool states reachable through the pool's own (non-teardown) API: freshly
constructed, or obtained from a reachable pool by a successful `execute`
(submit) or a successful `resize`.  This captures "from construction until
teardown begins". -/
inductive PoolReach (c : Nat) : ThreadPool → Prop where
  | constructed (tp : ThreadPool) : ThreadPool.new c = some tp → PoolReach c tp
  | executed (tp tp2 : ThreadPool) (j : Nat) :
      PoolReach c tp → tp.execute j = some tp2 → PoolReach c tp2
  | resized (tp tp2 : ThreadPool) (c2 : Nat) :
      PoolReach c tp → tp.resize c2 = some tp2 → PoolReach c tp2

/-- Concrete teardown run used to witness `submitted_jobs_executed_exactly_once`:
one worker, one submitted job (id 5), schedule = receive job, finish job,
receive terminate. -/
def finalStateW : SysState :=
  ⟨[], WStatus.Stopped ::ₘ
      (WStatus.Idle ::ₘ
        ((WStatus.Running 5 ::ₘ
          (Multiset.replicate 1 WStatus.Idle).erase WStatus.Idle).erase (WStatus.Running 5))).erase
        WStatus.Idle,
    (5 : Nat) ::ₘ 0⟩

/-- The pool produced by `ThreadPool.new 1`: one worker, empty buffer, one
send-end and two receive-ends (the worker's clone and the pool's own). -/
def poolOne : ThreadPool :=
  ⟨[Worker.new 0], ⟨[], 1, 2⟩⟩

/-- State of `poolOne` after teardown: the worker's handle has been taken and
joined, and one `Terminate` was pushed. -/
def poolOneDropped : ThreadPool :=
  ⟨[⟨0, none, 0⟩], ⟨[Message.Terminate], 1, 2⟩⟩

theorem newJob_injective : Function.Injective Message.NewJob :=
  fun _ _ hab => by simpa using hab

theorem count_newJob_map (jobs : List Nat) (j : Nat) :
    List.count (Message.NewJob j) (jobs.map Message.NewJob) = jobs.count j :=
  List.count_map_of_injective jobs Message.NewJob newJob_injective j

theorem sysInv_init (jobs : List Nat) (n : Nat) : SysInv jobs n (initState jobs n) := by
  refine ⟨?_, ?_, List.suffix_refl _, by simp [initState]⟩
  · intro j
    simp [initState, List.count_append, count_newJob_map,
      Multiset.count_replicate, List.count_replicate]
  · simp only [initState, List.count_append]
    have hm : List.count Message.Terminate (jobs.map Message.NewJob) = 0 := by
      simp [List.count_eq_zero]
    simp [hm, List.count_replicate, Multiset.count_replicate]

theorem sysInv_step (jobs : List Nat) (n : Nat) (s s2 : SysState)
    (hinv : SysInv jobs n s) (hstep : SysStep s s2) : SysInv jobs n s2 := by
  cases hstep with
  | recvJob job rest ws ex h =>
    obtain ⟨h1, h2, h3, h4⟩ := hinv
    dsimp only at h1 h2 h3 h4
    have hpos : 0 < Multiset.card ws := Multiset.card_pos_iff_exists_mem.mpr ⟨_, h⟩
    refine ⟨?_, ?_, ?_, ?_⟩
    · intro j
      have hj := h1 j
      dsimp only
      by_cases hjj : j = job
      · subst hjj
        have hcount : List.count (Message.NewJob j) (Message.NewJob j :: rest)
            = List.count (Message.NewJob j) rest + 1 := by
          simp [List.count_cons]
        rw [hcount] at hj
        rw [Multiset.count_cons_self, Multiset.count_erase_of_ne (by simp)]
        omega
      · have hcount : List.count (Message.NewJob j) (Message.NewJob job :: rest)
            = List.count (Message.NewJob j) rest := by
          simp [List.count_cons, Ne.symm hjj]
        rw [hcount] at hj
        rw [Multiset.count_cons_of_ne (by simp [hjj]), Multiset.count_erase_of_ne (by simp)]
        omega
    · dsimp only
      have hcount : List.count Message.Terminate (Message.NewJob job :: rest)
          = List.count Message.Terminate rest := by
        simp [List.count_cons]
      rw [hcount] at h2
      rw [Multiset.count_cons_of_ne (by simp), Multiset.count_erase_of_ne (by simp)]
      exact h2
    · exact (List.suffix_cons _ _).trans h3
    · dsimp only
      rw [Multiset.card_cons, Multiset.card_erase_of_mem h, Nat.pred_eq_sub_one]
      omega
  | finishJob job q ws ex h =>
    obtain ⟨h1, h2, h3, h4⟩ := hinv
    dsimp only at h1 h2 h3 h4
    have hpos : 0 < Multiset.card ws := Multiset.card_pos_iff_exists_mem.mpr ⟨_, h⟩
    refine ⟨?_, ?_, ?_, ?_⟩
    · intro j
      have hj := h1 j
      dsimp only
      by_cases hjj : j = job
      · subst hjj
        have hrun : 0 < Multiset.count (WStatus.Running j) ws := Multiset.count_pos.mpr h
        rw [Multiset.count_cons_self, Multiset.count_cons_of_ne (by simp),
          Multiset.count_erase_self]
        omega
      · rw [Multiset.count_cons_of_ne hjj, Multiset.count_cons_of_ne (by simp),
          Multiset.count_erase_of_ne (by simp [hjj])]
        omega
    · dsimp only
      rw [Multiset.count_cons_of_ne (by simp), Multiset.count_erase_of_ne (by simp)]
      exact h2
    · exact h3
    · dsimp only
      rw [Multiset.card_cons, Multiset.card_erase_of_mem h, Nat.pred_eq_sub_one]
      omega
  | recvTerm rest ws ex h =>
    obtain ⟨h1, h2, h3, h4⟩ := hinv
    dsimp only at h1 h2 h3 h4
    have hpos : 0 < Multiset.card ws := Multiset.card_pos_iff_exists_mem.mpr ⟨_, h⟩
    refine ⟨?_, ?_, ?_, ?_⟩
    · intro j
      have hj := h1 j
      dsimp only
      have hcount : List.count (Message.NewJob j) (Message.Terminate :: rest)
          = List.count (Message.NewJob j) rest := by
        simp [List.count_cons]
      rw [hcount] at hj
      rw [Multiset.count_cons_of_ne (by simp), Multiset.count_erase_of_ne (by simp)]
      exact hj
    · dsimp only
      have hcount : List.count Message.Terminate (Message.Terminate :: rest)
          = List.count Message.Terminate rest + 1 := by
        simp [List.count_cons]
      rw [hcount] at h2
      rw [Multiset.count_cons_self, Multiset.count_erase_of_ne (by simp)]
      omega
    · exact (List.suffix_cons _ _).trans h3
    · dsimp only
      rw [Multiset.card_cons, Multiset.card_erase_of_mem h, Nat.pred_eq_sub_one]
      omega

theorem sysInv_reach (jobs : List Nat) (n : Nat) (s : SysState)
    (hr : SysReach (initState jobs n) s) : SysInv jobs n s := by
  induction hr with
  | refl => exact sysInv_init jobs n
  | tail _ hstep ih => exact sysInv_step jobs n _ _ ih hstep

/-- C1: for every pool (any worker count `n > 0`) and every list of jobs passed
to `submit`, under every interleaving of the worker threads, once teardown has
returned — i.e. every worker thread has been joined, which in the model means
every worker has status `Stopped` — each submitted job has been executed
exactly once: its multiplicity in the execution log equals its multiplicity in
the submission list (so in particular a single submitted job is never dropped
and never run twice, and its execution has completed before teardown returns). -/
theorem submitted_jobs_executed_exactly_once (jobs : List Nat) (n : Nat) (hn : 0 < n)
    (s : SysState) (hr : SysReach (initState jobs n) s)
    (hstop : ∀ w ∈ s.workers, w = WStatus.Stopped) :
    ∀ j : Nat, s.executed.count j = jobs.count j := by
  obtain ⟨h1, h2, h3, h4⟩ := sysInv_reach jobs n s hr
  have hstopcount : s.workers.count WStatus.Stopped = n := by
    rw [← h4]
    rw [Multiset.count_eq_card.mpr]
    intro x hx
    exact (hstop x hx).symm
  have hqterm : s.queue.count Message.Terminate = 0 := by omega
  have hnotmem : Message.Terminate ∉ s.queue := List.count_eq_zero.mp hqterm
  have hqnil : s.queue = [] := by
    by_contra hne
    obtain ⟨t, ht⟩ := h3
    have hlast : (t ++ s.queue).getLast? = s.queue.getLast? :=
      List.getLast?_append_of_ne_nil t hne
    have hlast2 : (jobs.map Message.NewJob ++ List.replicate n Message.Terminate).getLast?
        = some Message.Terminate := by
      obtain ⟨n2, rfl⟩ : ∃ n2, n = n2 + 1 := ⟨n - 1, by omega⟩
      rw [List.replicate_succ', ← List.append_assoc]
      rw [List.getLast?_append_of_ne_nil _ (by simp)]
      rfl
    rw [ht, hlast2] at hlast
    have hg : s.queue.getLast hne = Message.Terminate := by
      have := List.getLast?_eq_getLast_of_ne_nil hne
      rw [this] at hlast
      exact (Option.some_injective _ hlast.symm)
    exact hnotmem (hg ▸ List.getLast_mem hne)
  intro j
  have hj := h1 j
  have hrun : s.workers.count (WStatus.Running j) = 0 := by
    by_contra hc
    have hmem : WStatus.Running j ∈ s.workers :=
      Multiset.count_pos.mp (Nat.pos_of_ne_zero hc)
    have := hstop _ hmem
    simp at this
  rw [hqnil] at hj
  simp only [List.count_nil] at hj
  omega

theorem submitted_jobs_executed_exactly_once_witness :
    Multiset.count 5 finalStateW.executed = List.count 5 [5] := by
  have hstep1 : SysStep (initState [5] 1)
      ⟨[Message.Terminate],
        WStatus.Running 5 ::ₘ (Multiset.replicate 1 WStatus.Idle).erase WStatus.Idle, 0⟩ :=
    SysStep.recvJob 5 [Message.Terminate] (Multiset.replicate 1 WStatus.Idle) 0 (by decide)
  have hstep2 : SysStep
      ⟨[Message.Terminate],
        WStatus.Running 5 ::ₘ (Multiset.replicate 1 WStatus.Idle).erase WStatus.Idle, 0⟩
      ⟨[Message.Terminate],
        WStatus.Idle ::ₘ
          ((WStatus.Running 5 ::ₘ
            (Multiset.replicate 1 WStatus.Idle).erase WStatus.Idle).erase (WStatus.Running 5)),
        (5 : Nat) ::ₘ 0⟩ :=
    SysStep.finishJob 5 [Message.Terminate] _ 0 (by decide)
  have hstep3 : SysStep
      ⟨[Message.Terminate],
        WStatus.Idle ::ₘ
          ((WStatus.Running 5 ::ₘ
            (Multiset.replicate 1 WStatus.Idle).erase WStatus.Idle).erase (WStatus.Running 5)),
        (5 : Nat) ::ₘ 0⟩
      finalStateW :=
    SysStep.recvTerm [] _ _ (by decide)
  have hreach : SysReach (initState [5] 1) finalStateW :=
    Relation.ReflTransGen.head hstep1 (Relation.ReflTransGen.head hstep2
      (Relation.ReflTransGen.single hstep3))
  have := submitted_jobs_executed_exactly_once [5] 1 (by decide) finalStateW hreach
    (by decide) 5
  simpa using this

/-- C5: the worker loop has exactly the two behaviours of the source `match`:
a `Run`/`NewJob` message makes the worker execute the job synchronously and
continue the loop (so the jobs it runs are the job just received followed by
whatever the rest of its message stream yields), a `Stop`/`Terminate` message
makes it exit the loop (nothing after the `Terminate` is consumed), and the
message type has no other variants. -/
theorem worker_loop_behaviour :
    (∀ m : Message, (∃ j, m = Message.NewJob j) ∨ m = Message.Terminate) ∧
    (∀ j rest, workerRun (Message.NewJob j :: rest) = j :: workerRun rest) ∧
    (∀ rest, workerRun (Message.Terminate :: rest) = []) ∧
    (∀ j, workerLoopBody (Except.ok (Message.NewJob j)) = WorkerStep.ranJob j) ∧
    workerLoopBody (Except.ok Message.Terminate) = WorkerStep.exited := by
  refine ⟨?_, fun j rest => rfl, fun rest => rfl, fun j => rfl, rfl⟩
  intro m
  cases m with
  | NewJob j => exact Or.inl ⟨j, rfl⟩
  | Terminate => exact Or.inr rfl

theorem new_eq (c : Nat) (tp : ThreadPool) (h : ThreadPool.new c = some tp) :
    tp = ⟨(List.range c).map Worker.new, ⟨[], 1, c + 1⟩⟩ ∧ c ≠ 0 := by
  unfold ThreadPool.new at h
  by_cases hc : c = 0
  · simp [hc] at h
  · simp [hc] at h
    exact ⟨h.symm, hc⟩

theorem new_workers_thread (c : Nat) (tp : ThreadPool) (h : ThreadPool.new c = some tp) :
    ∀ w ∈ tp.workers, w.thread.isSome = true := by
  obtain ⟨rfl, -⟩ := new_eq c tp h
  intro w hw
  simp only [List.mem_map] at hw
  obtain ⟨i, -, rfl⟩ := hw
  rfl

theorem sendAll_eq_some (ms : List Message) (ch ch2 : Channel)
    (h : Channel.sendAll ch ms = some ch2) :
    ch2 = { ch with queue := ch.queue ++ ms } := by
  induction ms generalizing ch with
  | nil =>
    simp only [Channel.sendAll] at h
    cases h
    simp
  | cons m rest ih =>
    simp only [Channel.sendAll, Channel.send] at h
    by_cases hr : ch.receivers = 0
    · simp [hr] at h
    · simp only [hr, if_neg hr, Option.some_bind] at h
      have := ih _ h
      simp only [this, List.append_assoc, List.singleton_append]

theorem sendAll_of_receivers_pos (ms : List Message) (ch : Channel)
    (h : 0 < ch.receivers) :
    Channel.sendAll ch ms = some { ch with queue := ch.queue ++ ms } := by
  induction ms generalizing ch with
  | nil => simp [Channel.sendAll]
  | cons m rest ih =>
    have hr : ¬ ch.receivers = 0 := by omega
    simp only [Channel.sendAll, Channel.send, if_neg hr, Option.some_bind]
    rw [ih _ (by simpa using h)]
    simp

theorem joinWorkers_fst (ws : List Worker) :
    (joinWorkers ws).1 = ws.filterMap Worker.thread := by
  induction ws with
  | nil => rfl
  | cons w rest ih =>
    simp only [joinWorkers, List.filterMap_cons]
    cases hw : w.thread with
    | none => simpa [hw] using ih
    | some h => simpa [hw] using ih

theorem joinWorkers_snd_thread (ws : List Worker) :
    ∀ w ∈ (joinWorkers ws).2, w.thread = none := by
  induction ws with
  | nil => intro w hw; simp [joinWorkers] at hw
  | cons w rest ih =>
    intro w2 hw2
    simp only [joinWorkers] at hw2
    cases hw : w.thread with
    | none =>
      rw [hw] at hw2
      simp only [List.mem_cons] at hw2
      rcases hw2 with h | h
      · subst h; rfl
      · exact ih _ h
    | some hth =>
      rw [hw] at hw2
      simp only [List.mem_cons] at hw2
      rcases hw2 with h | h
      · subst h; rfl
      · exact ih _ h

theorem filterMap_thread_length (ws : List Worker)
    (h : ∀ w ∈ ws, w.thread.isSome = true) :
    (ws.filterMap Worker.thread).length = ws.length := by
  induction ws with
  | nil => rfl
  | cons w rest ih =>
    have hw : w.thread.isSome = true := h w (by simp)
    obtain ⟨x, hx⟩ := Option.isSome_iff_exists.mp hw
    simp only [List.filterMap_cons, hx, List.length_cons]
    rw [ih (fun w2 hw2 => h w2 (by simp [hw2]))]

/-- C2: for every capacity strictly greater than zero, `ThreadPool::new`
succeeds (no assertion failure) and `capacity()` of the pool it returns is
exactly the requested number. -/
theorem new_capacity_roundtrip (c : Nat) (hc : 0 < c) :
    (ThreadPool.new c).map ThreadPool.capacity = some c := by
  have hc0 : ¬ c = 0 := by omega
  simp [ThreadPool.new, hc0, ThreadPool.capacity]

theorem new_capacity_roundtrip_witness :
    (ThreadPool.new 2).map ThreadPool.capacity = some 2 :=
  new_capacity_roundtrip 2 (by decide)

/-- C3: constructing a pool with capacity zero always fails fatally (the
`assert!` aborts construction, modelled by `none`), so no pool value is ever
produced or observable. -/
theorem new_zero_fails :
    ThreadPool.new 0 = none ∧ ∀ tp : ThreadPool, ThreadPool.new 0 ≠ some tp := by
  refine ⟨rfl, ?_⟩
  intro tp h
  exact Option.noConfusion h

/-- C4: teardown (`Drop::drop`) pushes exactly `capacity` `Terminate` messages
onto the shared queue (appended after whatever was queued), and only then joins
the workers: the joined handles are exactly the workers' handles in creation
order, each worker's handle is taken (left `none`) exactly once, and when every
worker still holds its handle — as is the case for a constructed pool — the
number of joins equals the capacity. -/
theorem drop_terminates_then_joins (tp tp2 : ThreadPool) (handles : List Nat)
    (hdrop : tp.drop = some (tp2, handles)) :
    tp2.channel.queue = tp.channel.queue ++ List.replicate tp.capacity Message.Terminate ∧
    handles = tp.workers.filterMap Worker.thread ∧
    (∀ w ∈ tp2.workers, w.thread = none) ∧
    ((∀ w ∈ tp.workers, w.thread.isSome = true) → handles.length = tp.capacity) := by
  unfold ThreadPool.drop at hdrop
  cases hsend : Channel.sendAll tp.channel (List.replicate tp.workers.length Message.Terminate) with
  | none => rw [hsend] at hdrop; simp at hdrop
  | some ch =>
    rw [hsend] at hdrop
    simp only [Option.map_some', Option.some_inj] at hdrop
    have hch := sendAll_eq_some _ _ _ hsend
    injection hdrop with h1 h2
    subst h1
    subst h2
    refine ⟨?_, ?_, ?_, ?_⟩
    · show ch.queue = _
      rw [hch]
      simp [ThreadPool.capacity]
    · exact joinWorkers_fst tp.workers
    · intro w hw
      exact joinWorkers_snd_thread tp.workers w hw
    · intro hall
      rw [joinWorkers_fst]
      exact filterMap_thread_length tp.workers hall

theorem drop_terminates_then_joins_witness :
    poolOneDropped.channel.queue
        = poolOne.channel.queue ++ List.replicate poolOne.capacity Message.Terminate ∧
      [0] = poolOne.workers.filterMap Worker.thread ∧
      (∀ w ∈ poolOneDropped.workers, w.thread = none) ∧
      ((∀ w ∈ poolOne.workers, w.thread.isSome = true) → ([0] : List Nat).length = poolOne.capacity) :=
  drop_terminates_then_joins poolOne poolOneDropped [0] (by decide)

/-- C6: along every sequence of pool operations (construction, then any
successful `execute`/submit and `resize` calls), the number of workers the pool
owns stays equal to the construction-time capacity, and `capacity()` — a pure
function of the pool with no side effects — returns exactly that worker count. -/
theorem capacity_invariant (c : Nat) (tp : ThreadPool) (h : PoolReach c tp) :
    tp.capacity = c ∧ tp.capacity = tp.workers.length := by
  induction h with
  | constructed tp hnew =>
    obtain ⟨rfl, hc⟩ := new_eq c tp hnew
    simp [ThreadPool.capacity]
  | executed tp tp2 j hreach hexec ih =>
    unfold ThreadPool.execute Channel.send at hexec
    by_cases hr : tp.channel.receivers = 0
    · simp [hr] at hexec
    · simp only [if_neg hr, Option.map_some', Option.some_inj] at hexec
      rw [← hexec]
      exact ih
  | resized tp tp2 c2 hreach hres ih =>
    unfold ThreadPool.resize at hres
    by_cases hc2 : c2 = 0
    · simp [hc2] at hres
    · simp only [if_neg hc2, Option.some_inj] at hres
      rw [← hres]
      exact ih

theorem capacity_invariant_witness :
    poolOne.capacity = 1 ∧ poolOne.capacity = poolOne.workers.length :=
  capacity_invariant 1 poolOne (PoolReach.constructed poolOne (by decide))

/-- C7: `execute` (submit) wraps the job in a `NewJob` message and pushes it at
the back of the shared queue, changing nothing else about the pool and
returning no handle; it succeeds exactly when the underlying channel push can
succeed (some receive-end is live) and fails fatally (the `unwrap` panic,
modelled by `none`) exactly when the push cannot succeed. -/
theorem execute_pushes_run_message (tp : ThreadPool) (j : Nat) :
    (0 < tp.channel.receivers →
      tp.execute j = some { workers := tp.workers,
                            channel := { queue := tp.channel.queue ++ [Message.NewJob j],
                                         senders := tp.channel.senders,
                                         receivers := tp.channel.receivers } }) ∧
    (tp.channel.receivers = 0 → tp.execute j = none) ∧
    ((tp.execute j).isSome ↔ (tp.channel.send (Message.NewJob j)).isSome) := by
  refine ⟨?_, ?_, ?_⟩
  · intro hr
    have hr0 : ¬ tp.channel.receivers = 0 := by omega
    simp [ThreadPool.execute, Channel.send, hr0]
  · intro hr
    simp [ThreadPool.execute, Channel.send, hr]
  · unfold ThreadPool.execute
    cases tp.channel.send (Message.NewJob j) <;> simp

theorem execute_pushes_run_message_witness :
    poolOne.execute 9 = some { workers := poolOne.workers,
                               channel := { queue := poolOne.channel.queue ++ [Message.NewJob 9],
                                            senders := poolOne.channel.senders,
                                            receivers := poolOne.channel.receivers } } :=
  (execute_pushes_run_message poolOne 9).1 (by decide)

/-- C8 counterexample: `resize` with capacity `0` is not a silent no-op — the
`assert!(capacity > 0)` at the top of `resize` fails, aborting the call
(modelled by `none`), so the claim "for every capacity argument, resize
silently does nothing" is false at capacity `0`. -/
theorem resize_zero_aborts :
    poolOne.resize 0 = none ∧ poolOne.resize 0 ≠ some poolOne := by
  decide

/-- C8 amended: for every pool and every capacity argument strictly greater
than zero, `resize` is accepted and silently does nothing, leaving the pool —
hence its worker collection and reported capacity — unchanged; for capacity
zero it fails fatally (assertion), again leaving the pool unchanged. -/
theorem resize_is_noop (tp : ThreadPool) (c : Nat) :
    (0 < c → tp.resize c = some tp) ∧ (c = 0 → tp.resize c = none) := by
  constructor
  · intro hc
    have hc0 : ¬ c = 0 := by omega
    simp [ThreadPool.resize, hc0]
  · intro hc
    simp [ThreadPool.resize, hc]

theorem resize_is_noop_witness : poolOne.resize 3 = some poolOne :=
  (resize_is_noop poolOne 3).1 (by decide)

/-- C9: when the blocking `recv` fails because every send-end of the channel
has been dropped (empty buffer, no live senders), the worker's
`receiver.recv().unwrap()` treats the failure as unrecoverable: the loop body
panics — propagating the failure and aborting the worker thread — and in
particular does not run any job or keep looping. -/
theorem recv_disconnected_propagates (ch : Channel)
    (hq : ch.queue = []) (hs : ch.senders = 0) :
    ch.recv = some (Except.error RecvError.disconnected) ∧
    workerLoopBody (Except.error RecvError.disconnected) = WorkerStep.panicked ∧
    (∀ j, workerLoopBody (Except.error RecvError.disconnected) ≠ WorkerStep.ranJob j) := by
  refine ⟨?_, rfl, fun j h => WorkerStep.noConfusion h⟩
  unfold Channel.recv
  rw [hq]
  simp [hs]

theorem recv_disconnected_propagates_witness :
    (⟨[], 0, 0⟩ : Channel).recv = some (Except.error RecvError.disconnected) ∧
    workerLoopBody (Except.error RecvError.disconnected) = WorkerStep.panicked ∧
    (∀ j, workerLoopBody (Except.error RecvError.disconnected) ≠ WorkerStep.ranJob j) :=
  recv_disconnected_propagates ⟨[], 0, 0⟩ rfl rfl

/-- C10: a constructed pool keeps its own clone of the receive-end (its
`receiver` field) besides the workers' clones, so the channel has
`capacity + 1` live receive-ends and can never be fully disconnected while the
pool is alive: the send in `execute` and the `Terminate` sends in teardown
always succeed (their `unwrap` panic branches are unreachable), and `execute`
leaves the receive-end count untouched. -/
theorem pool_retains_receiver (c : Nat) (tp : ThreadPool)
    (hnew : ThreadPool.new c = some tp) :
    tp.channel.receivers = tp.capacity + 1 ∧
    0 < tp.channel.receivers ∧
    (∀ j, (tp.execute j).isSome = true) ∧
    (tp.drop).isSome = true ∧
    (∀ j tp2, tp.execute j = some tp2 → tp2.channel.receivers = tp.channel.receivers) := by
  obtain ⟨rfl, hc⟩ := new_eq c tp hnew
  refine ⟨by simp [ThreadPool.capacity], by simp, ?_, ?_, ?_⟩
  · intro j
    simp [ThreadPool.execute, Channel.send]
  · unfold ThreadPool.drop
    rw [sendAll_of_receivers_pos _ _ (by simp)]
    rfl
  · intro j tp2 hexec
    simp only [ThreadPool.execute, Channel.send] at hexec
    split at hexec
    · exact Option.noConfusion hexec
    · simp only [Option.map_some', Option.some_inj] at hexec
      rw [← hexec]

theorem pool_retains_receiver_witness :
    poolOne.channel.receivers = poolOne.capacity + 1 ∧
    0 < poolOne.channel.receivers ∧
    (∀ j, (poolOne.execute j).isSome = true) ∧
    (poolOne.drop).isSome = true ∧
    (∀ j tp2, poolOne.execute j = some tp2 →
      tp2.channel.receivers = poolOne.channel.receivers) :=
  pool_retains_receiver 1 poolOne (by decide)

end Threaded
